import Mathlib

/- Verification of ScorePlayer's core score-analysis, planning, tie-tracking
   and scheduling logic, shallowly embedded from `score.py`, `player.py` and
   `config.py`.  MIDI values are modelled as integers; an unresolvable MIDI
   value (Python `p.midi is None`) is `Option.none`; tempi and durations are
   modelled as exact rationals. -/

/-- A note-bearing element of `stream.flat.notes` (score.py): either a single
note with an optional (resolvable) MIDI value, or a chord carrying a list of
pitches, each with an optional MIDI value. -/
inductive NoteElement where
  | noteE (midi : Option ℤ)
  | chordE (pitches : List (Option ℤ))
deriving DecidableEq

/-- The resolvable MIDI values carried by one element (score.py lines 61-72:
the element's pitches whose `.midi` is not `None`). -/
def elementValidMidis : NoteElement → List ℤ
  | .noteE m => m.toList
  | .chordE ps => ps.filterMap id

/-- All resolvable MIDI values of a stream of note elements, in order. -/
def validMidis : List NoteElement → List ℤ
  | [] => []
  | e :: es => elementValidMidis e ++ validMidis es

/-- score.py `get_score_range` (lines 54-82): fold `min`/`max` over all valid
MIDI values.  The Python `float` infinity sentinels together with the
`has_notes` flag amount to: the result is `None` iff no valid MIDI value
occurs at all, and otherwise the fold of `min`/`max` starting from the first
valid value. -/
def get_score_range (elements : List NoteElement) : Option (ℤ × ℤ) :=
  match validMidis elements with
  | [] => none
  | v :: vs => some (vs.foldl min v, vs.foldl max v)

/-- config.py line 11: `DEFAULT_TEMPO_BPM = 120`. -/
def DEFAULT_TEMPO_BPM : ℚ := 120

/-- The `number` attribute of a music21 `MetronomeMark` as score.py
`get_tempo_bpm` inspects it: missing (`None`), a numeric value, or a text
value together with the result of the `float(...)` conversion attempt. -/
inductive MarkNumber where
  | noneNum
  | num (q : ℚ)
  | text (parsed : Option ℚ)
deriving DecidableEq

/-- score.py `get_tempo_bpm` (lines 84-113): examine `mm_marks[0]` only; if
the list is empty, or the first mark's number is missing, unconvertible text,
or not positive, return the default BPM; otherwise return the first mark's
value. -/
def get_tempo_bpm (marks : List MarkNumber) : ℚ :=
  match marks with
  | [] => DEFAULT_TEMPO_BPM
  | m :: _ =>
    match m with
    | .noneNum => DEFAULT_TEMPO_BPM
    | .num q => if 0 < q then q else DEFAULT_TEMPO_BPM
    | .text p =>
      match p with
      | some q => if 0 < q then q else DEFAULT_TEMPO_BPM
      | none => DEFAULT_TEMPO_BPM

/-- The positive numeric value a metronome mark contributes, if any
(numeric or parsable text, and strictly positive). -/
def markValue : MarkNumber → Option ℚ
  | .num q => if 0 < q then some q else none
  | .text (some q) => if 0 < q then some q else none
  | .text none => none
  | .noneNum => none

/-- Stated from the spec's words for comparison with `get_tempo_bpm`: return
the first VALID tempo marking found anywhere in the stream, defaulting only
when no valid marking exists. -/
def specTempoFirstValid (marks : List MarkNumber) : ℚ :=
  match marks.filterMap markValue with
  | [] => DEFAULT_TEMPO_BPM
  | q :: _ => q

/- Helper lemmas about `foldl min` / `foldl max` over integer lists. -/

theorem foldl_min_le_init : ∀ (vs : List ℤ) (v : ℤ), vs.foldl min v ≤ v
  | [], v => le_refl v
  | a :: vs, v => le_trans (foldl_min_le_init vs (min v a)) (min_le_left v a)

theorem le_foldl_max_init : ∀ (vs : List ℤ) (v : ℤ), v ≤ vs.foldl max v
  | [], v => le_refl v
  | a :: vs, v => le_trans (le_max_left v a) (le_foldl_max_init vs (max v a))

theorem foldl_min_le_mem : ∀ (vs : List ℤ) (v x : ℤ), x ∈ vs → vs.foldl min v ≤ x
  | [], _, x, hx => absurd hx (List.not_mem_nil x)
  | a :: vs, v, x, hx => by
    rcases List.mem_cons.mp hx with rfl | h
    · exact le_trans (foldl_min_le_init vs (min v x)) (min_le_right v x)
    · exact foldl_min_le_mem vs (min v a) x h

theorem le_foldl_max_mem : ∀ (vs : List ℤ) (v x : ℤ), x ∈ vs → x ≤ vs.foldl max v
  | [], _, x, hx => absurd hx (List.not_mem_nil x)
  | a :: vs, v, x, hx => by
    rcases List.mem_cons.mp hx with rfl | h
    · exact le_trans (le_max_right v x) (le_foldl_max_init vs (max v x))
    · exact le_foldl_max_mem vs (max v a) x h

theorem foldl_min_le_all (vs : List ℤ) (v x : ℤ) (hx : x ∈ v :: vs) :
    vs.foldl min v ≤ x := by
  rcases List.mem_cons.mp hx with rfl | h
  · exact foldl_min_le_init vs x
  · exact foldl_min_le_mem vs v x h

theorem le_foldl_max_all (vs : List ℤ) (v x : ℤ) (hx : x ∈ v :: vs) :
    x ≤ vs.foldl max v := by
  rcases List.mem_cons.mp hx with rfl | h
  · exact le_foldl_max_init vs x
  · exact le_foldl_max_mem vs v x h

theorem foldl_min_mem (vs : List ℤ) (v : ℤ) : vs.foldl min v ∈ v :: vs := by
  induction vs generalizing v with
  | nil => exact List.mem_singleton.mpr rfl
  | cons a vs ih =>
    simp only [List.foldl_cons]
    rcases List.mem_cons.mp (ih (min v a)) with h | h
    · rcases min_choice v a with hm | hm
      · rw [h, hm]; exact List.mem_cons_self _ _
      · rw [h, hm]; exact List.mem_cons_of_mem _ (List.mem_cons_self _ _)
    · exact List.mem_cons_of_mem _ (List.mem_cons_of_mem _ h)

theorem foldl_max_mem (vs : List ℤ) (v : ℤ) : vs.foldl max v ∈ v :: vs := by
  induction vs generalizing v with
  | nil => exact List.mem_singleton.mpr rfl
  | cons a vs ih =>
    simp only [List.foldl_cons]
    rcases List.mem_cons.mp (ih (max v a)) with h | h
    · rcases max_choice v a with hm | hm
      · rw [h, hm]; exact List.mem_cons_self _ _
      · rw [h, hm]; exact List.mem_cons_of_mem _ (List.mem_cons_self _ _)
    · exact List.mem_cons_of_mem _ (List.mem_cons_of_mem _ h)

theorem validMidis_eq_nil_iff (es : List NoteElement) :
    validMidis es = [] ↔ ∀ e ∈ es, elementValidMidis e = [] := by
  induction es with
  | nil => simp [validMidis]
  | cons e es ih =>
    simp [validMidis, List.append_eq_nil, ih, List.forall_mem_cons]

/-- C9: range extraction returns `none` exactly when no event carries a pitch
with a valid MIDI value; any returned pair consists of the minimum and maximum
valid MIDI values present, so in particular `min ≤ max`. -/
theorem c9_range_extraction (es : List NoteElement) :
    (get_score_range es = none ↔ ∀ e ∈ es, elementValidMidis e = []) ∧
    (∀ lo hi, get_score_range es = some (lo, hi) →
      lo ≤ hi ∧ lo ∈ validMidis es ∧ hi ∈ validMidis es ∧
      ∀ m ∈ validMidis es, lo ≤ m ∧ m ≤ hi) := by
  constructor
  · rw [← validMidis_eq_nil_iff]
    unfold get_score_range
    cases hv : validMidis es with
    | nil => simp
    | cons v vs => simp
  · intro lo hi hsome
    unfold get_score_range at hsome
    cases hv : validMidis es with
    | nil => rw [hv] at hsome; cases hsome
    | cons v vs =>
      rw [hv] at hsome
      have h : (vs.foldl min v, vs.foldl max v) = (lo, hi) :=
        Option.some.inj hsome
      have hlo : vs.foldl min v = lo := congrArg Prod.fst h
      have hhi : vs.foldl max v = hi := congrArg Prod.snd h
      subst hlo hhi
      refine ⟨?_, ?_, ?_, ?_⟩
      · exact le_trans (foldl_min_le_all vs v v (List.mem_cons_self _ _))
          (le_foldl_max_all vs v v (List.mem_cons_self _ _))
      · exact foldl_min_mem vs v
      · exact foldl_max_mem vs v
      · intro m hm
        exact ⟨foldl_min_le_all vs v m hm, le_foldl_max_all vs v m hm⟩

/-- C9 witness: a concrete stream whose range is computed and bounded. -/
theorem c9_range_extraction_witness :
    get_score_range [NoteElement.noteE (some 60),
      NoteElement.chordE [some 72, none, some 55]] = some (55, 72) ∧
    (55 : ℤ) ≤ 72 := by
  have h := c9_range_extraction [NoteElement.noteE (some 60),
    NoteElement.chordE [some 72, none, some 55]]
  exact ⟨by decide, (h.2 55 72 (by decide)).1⟩

/-- C8 counterexample: with a first metronome mark that carries no number and
a second, valid mark of 90 BPM, the code returns the default 120 — not the
first valid marking found (90). -/
theorem c8_counterexample :
    get_tempo_bpm [MarkNumber.noneNum, MarkNumber.num 90] = 120 ∧
    specTempoFirstValid [MarkNumber.noneNum, MarkNumber.num 90] = 90 ∧
    (120 : ℚ) ≠ 90 := by
  refine ⟨by decide, by decide, by decide⟩

/-- C8 amended: tempo extraction inspects only the FIRST metronome mark; it
returns that mark's value when the value is a positive number (numeric, or
text convertible to a number), and otherwise — empty mark list, missing
number, unconvertible text, or a non-positive value — it returns the default
120 without raising an error. -/
theorem c8_tempo_first_mark (marks : List MarkNumber) :
    (marks = [] → get_tempo_bpm marks = DEFAULT_TEMPO_BPM) ∧
    (∀ m rest, marks = m :: rest →
      (∀ q, markValue m = some q → get_tempo_bpm marks = q) ∧
      (markValue m = none → get_tempo_bpm marks = DEFAULT_TEMPO_BPM)) := by
  constructor
  · intro h; subst h; rfl
  · intro m rest hm
    subst hm
    constructor
    · intro q hq
      cases m with
      | noneNum => simp [markValue] at hq
      | num x =>
        by_cases hx : 0 < x
        · simp [markValue, hx] at hq
          subst hq
          simp [get_tempo_bpm, hx]
        · simp [markValue, hx] at hq
      | text p =>
        cases p with
        | none => simp [markValue] at hq
        | some x =>
          by_cases hx : 0 < x
          · simp [markValue, hx] at hq
            subst hq
            simp [get_tempo_bpm, hx]
          · simp [markValue, hx] at hq
    · intro hnone
      cases m with
      | noneNum => rfl
      | num x =>
        by_cases hx : 0 < x
        · simp [markValue, hx] at hnone
        · simp [get_tempo_bpm, hx]
      | text p =>
        cases p with
        | none => rfl
        | some x =>
          by_cases hx : 0 < x
          · simp [markValue, hx] at hnone
          · simp [get_tempo_bpm, hx]

/-- C8 witness: a first mark of 90 BPM is returned; an empty list defaults. -/
theorem c8_tempo_first_mark_witness :
    get_tempo_bpm [MarkNumber.num 90] = 90 ∧ get_tempo_bpm [] = 120 := by
  have h := c8_tempo_first_mark [MarkNumber.num 90]
  have h2 := c8_tempo_first_mark ([] : List MarkNumber)
  exact ⟨(h.2 (MarkNumber.num 90) [] rfl).1 90 (by decide), h2.1 rfl⟩

/- Track selection, player.py `_get_next_score_index` (lines 277-304) and
   `update_score_list` (lines 396-403). -/

/-- player.py lines 287-295: `possible_indices = list(range(num_scores))`,
then `pop(current_idx)` when `0 <= current_idx < len(possible_indices)`
(the outer guard is `current_idx >= 0`; the except-branch is unreachable). -/
def randomPossibleIndicesPre (numScores : ℕ) (current : ℤ) : List ℕ :=
  if 0 ≤ current then
    if 0 ≤ current ∧ current < ((List.range numScores).length : ℤ) then
      (List.range numScores).eraseIdx current.toNat
    else List.range numScores
  else List.range numScores

/-- player.py lines 296-297: if the pop removed the only element, fall back
to all indices. -/
def randomPossibleIndices (numScores : ℕ) (current : ℤ) : List ℕ :=
  if (randomPossibleIndicesPre numScores current).isEmpty then
    List.range numScores
  else randomPossibleIndicesPre numScores current

/-- `random.choice` modelled with an explicit `pick` selecting a position. -/
def randomChoice (pick : ℕ) (l : List ℕ) : ℕ := l.getD (pick % l.length) 0

/-- player.py `_get_next_score_index` (lines 277-304): empty list gives `-1`;
`random` mode returns 0 for a single score and otherwise chooses from the
candidate list; `sequential` mode returns `(current + 1) % count`; an unknown
mode gives `-1`. -/
def getNextScoreIndex (mode : String) (numScores : ℕ) (current : ℤ)
    (pick : ℕ) : ℤ :=
  if numScores = 0 then -1
  else if mode = "random" then
    if numScores = 1 then 0
    else (randomChoice pick (randomPossibleIndices numScores current) : ℤ)
  else if mode = "sequential" then (current + 1) % (numScores : ℤ)
  else -1

/-- player.py `update_score_list` (lines 396-403): empty list resets the
selected index to `-1`; an index at or past the new end is clamped to the
last index; otherwise the index is kept. -/
def update_score_list (numScores : ℕ) (selected : ℤ) : ℤ :=
  if numScores = 0 then -1
  else if (numScores : ℤ) ≤ selected then (numScores : ℤ) - 1
  else selected

theorem isEmpty_false_of_ne_nil {l : List ℕ} (h : l ≠ []) :
    l.isEmpty = false := by
  cases l with
  | nil => exact absurd rfl h
  | cons a t => rfl

theorem randomChoice_mem (pick : ℕ) (l : List ℕ) (h : l ≠ []) :
    randomChoice pick l ∈ l := by
  unfold randomChoice
  have hlen : 0 < l.length := List.length_pos.mpr h
  have hmod : pick % l.length < l.length := Nat.mod_lt _ hlen
  rw [List.getD_eq_getElem?_getD, List.getElem?_eq_getElem hmod]
  simp only [Option.getD_some]
  exact List.getElem_mem hmod

theorem mem_randomPossibleIndices (count : ℕ) (current : ℤ)
    (hcount : 1 < count) (q : ℕ) :
    q ∈ randomPossibleIndices count current ↔
      (q < count ∧
        (0 ≤ current → current < (count : ℤ) → (q : ℤ) ≠ current)) := by
  by_cases hval : 0 ≤ current ∧ current < (count : ℤ)
  · have hlt : current.toNat < count := by omega
    have hlen : current.toNat < (List.range count).length := by simpa using hlt
    have hpre : randomPossibleIndicesPre count current
        = (List.range count).erase current.toNat := by
      unfold randomPossibleIndicesPre
      rw [if_pos hval.1, if_pos (by simp only [List.length_range]; exact hval)]
      have herase := (List.nodup_range count).erase_getElem current.toNat hlen
      simpa [List.getElem_range] using herase.symm
    have hL : (randomPossibleIndicesPre count current).length = count - 1 := by
      unfold randomPossibleIndicesPre
      rw [if_pos hval.1, if_pos (by simp only [List.length_range]; exact hval)]
      rw [List.length_eraseIdx_of_lt hlen]
      simp
    have hne : randomPossibleIndicesPre count current ≠ [] := by
      intro hnil
      rw [hnil] at hL
      simp at hL
      omega
    unfold randomPossibleIndices
    rw [if_neg (by rw [isEmpty_false_of_ne_nil hne]; exact Bool.false_ne_true)]
    rw [hpre, (List.nodup_range count).mem_erase_iff]
    simp only [List.mem_range]
    omega
  · have hpre : randomPossibleIndicesPre count current = List.range count := by
      unfold randomPossibleIndicesPre
      by_cases hc0 : 0 ≤ current
      · rw [if_pos hc0,
          if_neg (by simp only [List.length_range]; exact fun hh => hval hh)]
      · rw [if_neg hc0]
    have hne : randomPossibleIndicesPre count current ≠ [] := by
      rw [hpre]
      intro hnil
      rw [List.range_eq_nil] at hnil
      omega
    unfold randomPossibleIndices
    rw [if_neg (by rw [isEmpty_false_of_ne_nil hne]; exact Bool.false_ne_true)]
    rw [hpre]
    simp only [List.mem_range]
    omega

theorem randomPossibleIndices_ne_nil (count : ℕ) (current : ℤ)
    (h : 0 < count) : randomPossibleIndices count current ≠ [] := by
  unfold randomPossibleIndices
  by_cases hE : (randomPossibleIndicesPre count current).isEmpty = true
  · rw [if_pos hE]
    intro hnil
    rw [List.range_eq_nil] at hnil
    omega
  · rw [if_neg hE]
    intro hnil
    exact hE (by rw [hnil]; rfl)

/-- C7: random selection returns 0 for a single score; for more than one
score every possible result is a valid index and never equals a valid
current index; with no current selection every index is a possible result. -/
theorem c7_random_selection (count : ℕ) (current : ℤ) :
    (count = 1 → ∀ pick : ℕ,
      getNextScoreIndex "random" count current pick = 0) ∧
    (1 < count → ∀ pick : ℕ,
      0 ≤ getNextScoreIndex "random" count current pick ∧
      getNextScoreIndex "random" count current pick < (count : ℤ) ∧
      (0 ≤ current → current < (count : ℤ) →
        getNextScoreIndex "random" count current pick ≠ current)) ∧
    (1 < count → current = -1 → ∀ i : ℕ, i < count →
      ∃ pick : ℕ, getNextScoreIndex "random" count current pick = (i : ℤ)) := by
  refine ⟨?_, ?_, ?_⟩
  · intro h1 pick
    unfold getNextScoreIndex
    rw [if_neg (by omega), if_pos rfl, if_pos h1]
  · intro hc pick
    have hred : getNextScoreIndex "random" count current pick
        = ((randomChoice pick (randomPossibleIndices count current) : ℕ) : ℤ) := by
      unfold getNextScoreIndex
      rw [if_neg (by omega), if_pos rfl, if_neg (by omega)]
    have hmem := randomChoice_mem pick _
      (randomPossibleIndices_ne_nil count current (by omega))
    rw [mem_randomPossibleIndices count current hc] at hmem
    refine ⟨by rw [hred]; exact Int.natCast_nonneg _,
      by rw [hred]; exact_mod_cast hmem.1, ?_⟩
    intro hc0 hcc
    rw [hred]
    exact hmem.2 hc0 hcc
  · intro hc hcur i hi
    subst hcur
    refine ⟨i, ?_⟩
    have hpre : randomPossibleIndicesPre count (-1) = List.range count := by
      unfold randomPossibleIndicesPre
      rw [if_neg (by omega)]
    have hpost : randomPossibleIndices count (-1) = List.range count := by
      unfold randomPossibleIndices
      rw [hpre, ite_self]
    unfold getNextScoreIndex
    rw [if_neg (by omega), if_pos rfl, if_neg (by omega), hpost]
    unfold randomChoice
    have hmod : i % (List.range count).length < (List.range count).length := by
      rw [List.length_range]
      exact Nat.mod_lt _ (by omega)
    rw [List.getD_eq_getElem?_getD, List.getElem?_eq_getElem hmod]
    simp [List.getElem_range, List.length_range, Nat.mod_eq_of_lt hi]

/-- C7 witness: one score gives 0; with 5 scores and current index 2 the
result is a valid index other than 2. -/
theorem c7_random_selection_witness :
    getNextScoreIndex "random" 1 0 5 = 0 ∧
    (0 ≤ getNextScoreIndex "random" 5 2 7 ∧
     getNextScoreIndex "random" 5 2 7 < 5 ∧
     getNextScoreIndex "random" 5 2 7 ≠ 2) := by
  have h1 := (c7_random_selection 1 0).1 rfl 5
  have h5 := (c7_random_selection 5 2).2.1 (by omega) 7
  exact ⟨h1, h5.1, h5.2.1, h5.2.2 (by omega) (by omega)⟩

/-- C6: sequential selection returns `(current + 1) mod count`, a valid
index; an initial current index of `-1` resolves to 0. -/
theorem c6_sequential_selection (count : ℕ) (current : ℤ) (pick : ℕ)
    (h : 0 < count) :
    getNextScoreIndex "sequential" count current pick
      = (current + 1) % (count : ℤ) ∧
    0 ≤ (current + 1) % (count : ℤ) ∧
    (current + 1) % (count : ℤ) < (count : ℤ) ∧
    (current = -1 → getNextScoreIndex "sequential" count current pick = 0) := by
  have hne : ¬ (count = 0) := by omega
  have hmode : ¬ (("sequential" : String) = "random") := by decide
  have hcz : ((count : ℤ)) ≠ 0 := by exact_mod_cast hne
  have hred : getNextScoreIndex "sequential" count current pick
      = (current + 1) % (count : ℤ) := by
    unfold getNextScoreIndex
    rw [if_neg hne, if_neg hmode, if_pos rfl]
  refine ⟨hred, Int.emod_nonneg _ hcz,
    Int.emod_lt_of_pos _ (by exact_mod_cast h), ?_⟩
  intro hcur
  subst hcur
  rw [hred]
  have hz : (-1 + 1 : ℤ) = 0 := by norm_num
  rw [hz, Int.zero_emod]

/-- C6 witness: `next(count=3, current=2) = 0` and
`next(count=3, current=-1) = 0`. -/
theorem c6_sequential_selection_witness :
    getNextScoreIndex "sequential" 3 2 0 = 0 ∧
    getNextScoreIndex "sequential" 3 (-1) 0 = 0 := by
  have h1 := c6_sequential_selection 3 2 0 (by omega)
  have h2 := c6_sequential_selection 3 (-1) 0 (by omega)
  refine ⟨?_, h2.2.2.2 rfl⟩
  rw [h1.1]
  decide

/-- C10: after `update_score_list`, the selection invariant
`-1 ≤ index < count` holds (index is `-1` for an empty list): an empty list
resets to `-1`, a too-large index is clamped to the last index, and a
still-valid index is unchanged. -/
theorem c10_update_score_list_invariant (numScores : ℕ) (selected : ℤ)
    (h : -1 ≤ selected) :
    -1 ≤ update_score_list numScores selected ∧
    (numScores = 0 → update_score_list numScores selected = -1) ∧
    (0 < numScores →
      update_score_list numScores selected < (numScores : ℤ)) ∧
    (0 < numScores → (numScores : ℤ) ≤ selected →
      update_score_list numScores selected = (numScores : ℤ) - 1) ∧
    (selected < (numScores : ℤ) →
      update_score_list numScores selected = selected) := by
  unfold update_score_list
  by_cases h0 : numScores = 0
  · rw [if_pos h0]
    subst h0
    refine ⟨by omega, fun _ => rfl, by omega, by omega, by omega⟩
  · rw [if_neg h0]
    by_cases hsel : (numScores : ℤ) ≤ selected
    · rw [if_pos hsel]
      refine ⟨by omega, fun hh => absurd hh h0, by omega,
        fun _ _ => rfl, by omega⟩
    · rw [if_neg hsel]
      refine ⟨by omega, fun hh => absurd hh h0, by omega,
        fun _ hh => absurd hh hsel, fun _ => rfl⟩

/-- C10 witness: clamping 5 to the last index of a 2-element list gives 1,
and a still-valid index 0 is kept. -/
theorem c10_update_score_list_invariant_witness :
    update_score_list 2 5 = 1 ∧ update_score_list 2 0 = 0 := by
  have h1 := (c10_update_score_list_invariant 2 5 (by omega)).2.2.2.1
    (by omega) (by omega)
  have h2 := (c10_update_score_list_invariant 2 0 (by omega)).2.2.2.2
    (by omega)
  rw [h1, h2]
  exact ⟨by norm_num, rfl⟩

/- Tie tracking, player.py `_playback_loop` lines 138-185. -/

/-- The `type` of a music21 tie object, as the playback loop inspects it. -/
inductive TieType where
  | start
  | continue'
  | stop
deriving DecidableEq

/-- player.py lines 145-146 and 174-175: a pitch is held over iff its tie
exists and its type is `start` or `continue`. -/
def hasTieStart : Option TieType → Bool
  | some .start => true
  | some .continue' => true
  | _ => false

/-- An element of `elements_to_play` as the tie-tracking logic sees it: the
pitch identity is `nameWithOctave` (modelled as a string), carried with its
optional tie. -/
inductive PlayEvent where
  | noteE (pid : String) (tie : Option TieType)
  | chordE (notes : List (String × Option TieType))
  | restE
deriving DecidableEq

/-- Python dict insertion restricted to the key set: re-inserting a present
key leaves the key set unchanged. -/
def dictInsert (s : List String) (pid : String) : List String :=
  if pid ∈ s then s else s ++ [pid]

/-- The pitch identities carried by an event. -/
def eventPitches : PlayEvent → List String
  | .noteE pid _ => [pid]
  | .chordE notes => notes.map (fun n => n.1)
  | .restE => []

/-- player.py lines 141 and 161-164: each pitch of the event is classified as
a tie continuation iff its identity is currently in `tied_pitches`. -/
def tieClassify (sustained : List String) : PlayEvent → List (String × Bool)
  | .noteE pid _ => [(pid, decide (pid ∈ sustained))]
  | .chordE notes => notes.map (fun n => (n.1, decide (n.1 ∈ sustained)))
  | .restE => []

/-- player.py lines 150-185: the update of `tied_pitches` after an event.  A
Note inserts its own pitch when its tie is start/continue and otherwise
deletes it if present (other keys are untouched); a Chord rebuilds the dict
from its start/continue pitches alone; a Rest changes nothing. -/
def tieUpdate (sustained : List String) : PlayEvent → List String
  | .noteE pid tie =>
    if hasTieStart tie then dictInsert sustained pid
    else if pid ∈ sustained then sustained.erase pid
    else sustained
  | .chordE notes =>
    (notes.filter (fun n => hasTieStart n.2)).foldl
      (fun acc n => dictInsert acc n.1) []
  | .restE => sustained

theorem mem_dictInsert (s : List String) (p q : String) :
    q ∈ dictInsert s p ↔ q ∈ s ∨ q = p := by
  unfold dictInsert
  by_cases hp : p ∈ s
  · rw [if_pos hp]
    constructor
    · exact fun h => Or.inl h
    · rintro (h | rfl)
      · exact h
      · exact hp
  · rw [if_neg hp]
    simp [List.mem_append]

theorem mem_foldl_dictInsert (l : List (String × Option TieType))
    (acc : List String) (q : String) :
    q ∈ l.foldl (fun a n => dictInsert a n.1) acc ↔
      q ∈ acc ∨ ∃ n ∈ l, n.1 = q := by
  induction l generalizing acc with
  | nil => simp
  | cons n l ih =>
    simp only [List.foldl_cons]
    rw [ih]
    constructor
    · rintro (h | h)
      · rcases (mem_dictInsert acc n.1 q).mp h with h' | rfl
        · exact Or.inl h'
        · exact Or.inr ⟨n, List.mem_cons_self _ _, rfl⟩
      · rcases h with ⟨m, hm, hq⟩
        exact Or.inr ⟨m, List.mem_cons_of_mem _ hm, hq⟩
    · rintro (h | ⟨m, hm, hq⟩)
      · exact Or.inl ((mem_dictInsert acc n.1 q).mpr (Or.inl h))
      · rcases List.mem_cons.mp hm with rfl | hm'
        · exact Or.inl ((mem_dictInsert acc m.1 q).mpr (Or.inr hq.symm))
        · exact Or.inr ⟨m, hm', hq⟩

/-- C2 amended: each pitch of the event is classified as a continuation iff
present in the sustained map; after the event, a Note's pitch is tracked iff
its role is Start/Continue, and only the Note's OWN pitch is removed when its
role is not Start/Continue — other sustained pitches are retained; a Chord
rebuilds the map so that exactly its Start/Continue pitches remain (sustained
pitches absent from the chord are removed); Rest events leave the map
unchanged. -/
theorem c2_tie_tracking (sustained : List String) (ev : PlayEvent)
    (hnd : sustained.Nodup) :
    (tieClassify sustained ev
      = (eventPitches ev).map (fun p => (p, decide (p ∈ sustained)))) ∧
    (∀ pid tie, ev = .noteE pid tie → ∀ q : String,
      (q ∈ tieUpdate sustained ev ↔
        if hasTieStart tie then (q ∈ sustained ∨ q = pid)
        else (q ∈ sustained ∧ q ≠ pid))) ∧
    (∀ notes, ev = .chordE notes → ∀ q : String,
      (q ∈ tieUpdate sustained ev ↔
        ∃ n ∈ notes, n.1 = q ∧ hasTieStart n.2)) ∧
    (ev = .restE → tieUpdate sustained ev = sustained) := by
  refine ⟨?_, ?_, ?_, ?_⟩
  · cases ev with
    | noteE pid tie => rfl
    | chordE notes => rw [eventPitches, List.map_map]; rfl
    | restE => rfl
  · rintro pid tie rfl q
    simp only [tieUpdate]
    by_cases ht : hasTieStart tie = true
    · rw [if_pos ht, if_pos ht]
      exact mem_dictInsert sustained pid q
    · rw [if_neg ht, if_neg ht]
      by_cases hp : pid ∈ sustained
      · rw [if_pos hp, hnd.mem_erase_iff]
        constructor
        · rintro ⟨h1, h2⟩
          exact ⟨h2, h1⟩
        · rintro ⟨h1, h2⟩
          exact ⟨h2, h1⟩
      · rw [if_neg hp]
        constructor
        · intro hq
          exact ⟨hq, fun he => hp (he ▸ hq)⟩
        · exact fun h => h.1
  · rintro notes rfl q
    simp only [tieUpdate]
    rw [mem_foldl_dictInsert]
    simp only [List.not_mem_nil, false_or, List.mem_filter]
    constructor
    · rintro ⟨n, ⟨hn, hts⟩, hq⟩
      exact ⟨n, hn, hq, hts⟩
    · rintro ⟨n, hn, hq, hts⟩
      exact ⟨n, ⟨hn, hts⟩, hq⟩
  · rintro rfl
    rfl

/-- C2 counterexample: with "C4" sustained, a Note event on the different
pitch "D4" with no tie leaves "C4" in the tracked state, although the claim
says a sustained pitch absent from the event is removed. -/
theorem c2_counterexample :
    "C4" ∉ eventPitches (PlayEvent.noteE "D4" none) ∧
    "C4" ∈ tieUpdate ["C4"] (PlayEvent.noteE "D4" none) := by
  exact ⟨by decide, by decide⟩

/-- C2 witness: a Start inserts "C4"; a Continue on "C4" is classified as a
continuation; a Stop removes "C4". -/
theorem c2_tie_tracking_witness :
    "C4" ∈ tieUpdate [] (PlayEvent.noteE "C4" (some TieType.start)) ∧
    tieClassify ["C4"] (PlayEvent.noteE "C4" (some TieType.continue'))
      = [("C4", true)] ∧
    "C4" ∉ tieUpdate ["C4"] (PlayEvent.noteE "C4" (some TieType.stop)) := by
  have h1 := (c2_tie_tracking [] (PlayEvent.noteE "C4" (some TieType.start))
    (by decide)).2.1 "C4" (some TieType.start) rfl "C4"
  have h3 := (c2_tie_tracking ["C4"] (PlayEvent.noteE "C4" (some TieType.stop))
    (by decide)).2.1 "C4" (some TieType.stop) rfl "C4"
  refine ⟨?_, by decide, ?_⟩
  · rw [h1]
    decide
  · rw [h3]
    decide

/- Staccato scheduling, player.py `_playback_loop` lines 125-137 and 191. -/

/-- An articulation marker on an event: a Staccato, or anything else. -/
inductive Articulation where
  | staccato
  | other
deriving DecidableEq

/-- player.py lines 129-134: scan the event's articulations for a Staccato. -/
def isStaccatoEvent (arts : List Articulation) : Bool :=
  arts.any (fun a => match a with | .staccato => true | .other => false)

/-- The two durations the loop computes for one event: the duration passed to
the device dispatch call, and the wait before advancing. -/
structure DispatchTiming where
  dispatchDuration : ℚ
  waitDuration : ℚ
deriving DecidableEq

/-- player.py lines 111, 125-137: `duration_sec = quarterLength * (60/bpm)`
is always handed to the device; `wait_duration_sec` is halved (`* 0.5`) when
the event is staccato and equals the full duration otherwise. -/
def scheduleEvent (quarterLength bpm : ℚ) (arts : List Articulation) :
    DispatchTiming :=
  let d := quarterLength * (60 / bpm)
  { dispatchDuration := d,
    waitDuration := if isStaccatoEvent arts then d * (1/2) else d }

/-- C4: the device is told the full computed duration `quarterLength*60/BPM`;
the scheduler waits half of it for staccato events and all of it otherwise. -/
theorem c4_staccato_timing (quarterLength bpm : ℚ) (arts : List Articulation) :
    (scheduleEvent quarterLength bpm arts).dispatchDuration
      = quarterLength * (60 / bpm) ∧
    (isStaccatoEvent arts = true →
      (scheduleEvent quarterLength bpm arts).waitDuration
        = (scheduleEvent quarterLength bpm arts).dispatchDuration * (1/2)) ∧
    (isStaccatoEvent arts = false →
      (scheduleEvent quarterLength bpm arts).waitDuration
        = (scheduleEvent quarterLength bpm arts).dispatchDuration) := by
  refine ⟨rfl, ?_, ?_⟩
  · intro h
    unfold scheduleEvent
    simp [h]
  · intro h
    unfold scheduleEvent
    simp [h]

/-- C4 witness: a staccato quarter note at 120 BPM is dispatched with 1/2 s
but waited for only 1/4 s. -/
theorem c4_staccato_timing_witness :
    (scheduleEvent 1 120 [Articulation.other,
      Articulation.staccato]).dispatchDuration = 1/2 ∧
    (scheduleEvent 1 120 [Articulation.other,
      Articulation.staccato]).waitDuration = (1/2) * (1/2) := by
  have h := (c4_staccato_timing 1 120 [Articulation.other,
    Articulation.staccato]).2.1 (by decide)
  have hd := (c4_staccato_timing 1 120 [Articulation.other,
    Articulation.staccato]).1
  constructor
  · rw [hd]
    norm_num
  · rw [h, hd]
    norm_num

/- Scheduler stop behaviour, player.py lines 115-123, 190-198 and 252-257. -/

/-- The shared flags reset by the playback thread's exit code
(player.py lines 253-254). -/
structure SchedulerFlags where
  isPlaying : Bool
  isPaused : Bool
deriving DecidableEq

/-- A discrete model of the playback loop's cooperative stop polling:
`stopAt k` is whether `stop_event` is set at the k-th cooperative check (the
code polls at event boundaries, inside pause waits and during duration
sleeps; the poll index abstracts over all those polling points).  Dispatch
ends at the first poll that observes the stop signal (player.py lines
115-123 and 191-198). -/
def playbackDispatch (stopAt : ℕ → Bool) : ℕ → List PlayEvent → List PlayEvent
  | _, [] => []
  | k, e :: es =>
    if stopAt k then [] else e :: playbackDispatch stopAt (k + 1) es

/-- A playback run: dispatch until exhaustion or stop; then the cleanup of
player.py lines 252-254 resets `is_playing` and `is_paused`
unconditionally. -/
def playbackRun (stopAt : ℕ → Bool) (events : List PlayEvent)
    (st : SchedulerFlags) : SchedulerFlags × List PlayEvent :=
  ({ st with isPlaying := false, isPaused := false },
   playbackDispatch stopAt 0 events)

theorem playbackDispatch_length_le (stopAt : ℕ → Bool)
    (hmono : ∀ i j, i ≤ j → stopAt i = true → stopAt j = true)
    (k : ℕ) (hk : stopAt k = true) :
    ∀ (events : List PlayEvent) (c : ℕ),
      (playbackDispatch stopAt c events).length ≤ k - c := by
  intro events
  induction events with
  | nil =>
    intro c
    simp [playbackDispatch]
  | cons e es ih =>
    intro c
    unfold playbackDispatch
    by_cases hc : stopAt c = true
    · rw [if_pos hc]
      simp
    · rw [if_neg hc]
      have hck : c < k := by
        by_contra hge
        exact hc (hmono k c (by omega) hk)
      have hrec := ih (c + 1)
      simp only [List.length_cons]
      omega

/-- C5: whenever the stop signal is raised — observed from poll index `k` on,
and never un-set afterwards — the run dispatches at most `k` events, i.e. it
exits at the first poll that sees the stop, and after exit both `is_playing`
and `is_paused` are false regardless of the prior flag state. -/
theorem c5_stop_returns_idle (stopAt : ℕ → Bool) (events : List PlayEvent)
    (st : SchedulerFlags)
    (hmono : ∀ i j, i ≤ j → stopAt i = true → stopAt j = true)
    (k : ℕ) (hk : stopAt k = true) :
    (playbackRun stopAt events st).1.isPlaying = false ∧
    (playbackRun stopAt events st).1.isPaused = false ∧
    ((playbackRun stopAt events st).2).length ≤ k := by
  refine ⟨rfl, rfl, ?_⟩
  have h := playbackDispatch_length_le stopAt hmono k hk events 0
  simpa using h

/-- C5 witness: with the stop signal already set, no event is dispatched and
the flags end false even from a playing, paused state. -/
theorem c5_stop_returns_idle_witness :
    (playbackRun (fun _ => true) [PlayEvent.restE]
      ⟨true, true⟩).1.isPlaying = false ∧
    (playbackRun (fun _ => true) [PlayEvent.restE]
      ⟨true, true⟩).1.isPaused = false ∧
    ((playbackRun (fun _ => true) [PlayEvent.restE] ⟨true, true⟩).2).length
      ≤ 0 :=
  c5_stop_returns_idle (fun _ => true) [PlayEvent.restE] ⟨true, true⟩
    (fun _ _ _ h => h) 0 rfl

/- Melody-mode preparation and the full/melody decision, score.py
   `load_and_prepare_score` (lines 115-245). -/

/-- Insertion step of a sorting of the melody's MIDI values (the model of
Python `sorted(data)` inside `statistics.median`). -/
def insertSorted (x : ℤ) : List ℤ → List ℤ
  | [] => [x]
  | y :: ys => if x ≤ y then x :: y :: ys else y :: insertSorted x ys

def sortInts (l : List ℤ) : List ℤ := l.foldr insertSorted []

/-- `statistics.median`: sort the data; for odd length take the middle
element, for even length the mean of the two middle elements. -/
def pyMedian (l : List ℤ) : ℚ :=
  let s := sortInts l
  let n := s.length
  if n % 2 = 1 then ((s.getD (n / 2) 0 : ℤ) : ℚ)
  else (((s.getD (n / 2 - 1) 0 : ℤ) : ℚ) + ((s.getD (n / 2) 0 : ℤ) : ℚ)) / 2

/-- Python `round` on an exact value: round to the nearest integer, ties to
the even neighbour (banker's rounding). -/
def pyRound (q : ℚ) : ℤ :=
  if q - ⌊q⌋ < 1/2 then ⌊q⌋
  else if 1/2 < q - ⌊q⌋ then ⌊q⌋ + 1
  else if ⌊q⌋ % 2 = 0 then ⌊q⌋ else ⌊q⌋ + 1

/-- score.py lines 178-194: the per-note representative MIDI values of the
melody voice — a Note contributes its value when resolvable; a Chord
contributes the highest resolvable value among its pitches, if any. -/
def melodyMidiValues : List NoteElement → List ℤ
  | [] => []
  | .noteE m :: es => m.toList ++ melodyMidiValues es
  | .chordE ps :: es =>
    (match ps.filterMap id with
     | [] => []
     | v :: vs => [vs.foldl max v]) ++ melodyMidiValues es

/-- score.py line 201: `TARGET_CENTER_MIDI = 65`. -/
def TARGET_CENTER_MIDI : ℤ := 65

/-- score.py line 202: the uniform transposition in semitones, rounded to
the nearest integer, that moves the median to the target center. -/
def melodyTranspose (part1 : List NoteElement) : ℤ :=
  pyRound ((TARGET_CENTER_MIDI : ℚ) - pyMedian (melodyMidiValues part1))

/-- A uniform semitone shift of one element, as `part.transpose(Interval(t))`
shifts every pitch; modelled on MIDI values. -/
def transposeElement (t : ℤ) : NoteElement → NoteElement
  | .noteE m => .noteE (m.map (fun v => v + t))
  | .chordE ps => .chordE (ps.map (fun p => p.map (fun v => v + t)))

/-- score.py lines 196-225: with no extractable MIDI values the melody is
unplayable; otherwise the whole voice is transposed by the computed amount
when it is nonzero and is kept as-is when it is zero. -/
def prepareMelody (part1 : List NoteElement) :
    Option (ℤ × List NoteElement) :=
  if melodyMidiValues part1 = [] then none
  else some (melodyTranspose part1,
    if melodyTranspose part1 ≠ 0
    then part1.map (transposeElement (melodyTranspose part1))
    else part1)

/-- The outcome of `load_and_prepare_score` restricted to mode selection:
the mode labels "No Notes", "Full Score", "Melody Only+Centered
(Transposed t)", "No Melody Notes" and "Error Loading". -/
inductive PrepMode where
  | noNotes
  | fullScore
  | melodyMode (transpose : ℤ)
  | noMelodyNotes
  | errorLoading
deriving DecidableEq

/-- A parsed score as the planner sees it: the flattened full stream and the
list of parts (`score.parts`), each a stream of note elements. -/
structure ScoreData where
  elements : List NoteElement
  parts : List (List NoteElement)

/-- score.py lines 155-225: the non-full branch — no parts raises a
`ValueError` ("Error Loading"); a first part without valid notes gives "No
Melody Notes"; otherwise melody mode with the computed transposition.
(The separate `melody_notes`/`melody_midi_values` emptiness checks coincide
with `get_score_range` returning `None`.) -/
def planElse (s : ScoreData) : PrepMode :=
  match s.parts with
  | [] => .errorLoading
  | part1 :: _ =>
    match get_score_range part1 with
    | none => .noMelodyNotes
    | some _ =>
      match prepareMelody part1 with
      | none => .noMelodyNotes
      | some (t, _) => .melodyMode t

/-- score.py lines 126-245, mode decision: no valid notes gives "No Notes";
a full range within `[backendMin - tolerance, backendMax + tolerance]`
selects full mode (chordify failure is non-fatal and tempo extraction always
yields a positive BPM, so neither changes the selected mode); otherwise the
melody branch runs. -/
def load_and_prepare_mode (s : ScoreData)
    (tolerance backendMin backendMax : ℤ) : PrepMode :=
  match get_score_range s.elements with
  | none => .noNotes
  | some (minFull, maxFull) =>
    if minFull ≥ backendMin - tolerance ∧ maxFull ≤ backendMax + tolerance
    then .fullScore
    else planElse s

theorem transposeElement_zero (e : NoteElement) : transposeElement 0 e = e := by
  cases e with
  | noteE m => cases m <;> simp [transposeElement]
  | chordE ps =>
    simp only [transposeElement]
    exact congrArg NoteElement.chordE (by
      induction ps with
      | nil => rfl
      | cons p ps ih => cases p <;> simp [ih])

theorem transposeZeroMap (l : List NoteElement) :
    l.map (transposeElement 0) = l := by
  rw [show transposeElement 0 = id from funext transposeElement_zero,
    List.map_id]

theorem pyRound_intCast (n : ℤ) : pyRound ((n : ℤ) : ℚ) = n := by
  unfold pyRound
  rw [Int.floor_intCast, sub_self]
  rw [if_pos (by norm_num)]

theorem planElse_ne_fullScore (s : ScoreData) :
    planElse s ≠ PrepMode.fullScore := by
  intro hc
  unfold planElse at hc
  split at hc
  · exact PrepMode.noConfusion hc
  · split at hc
    · exact PrepMode.noConfusion hc
    · split at hc
      · exact PrepMode.noConfusion hc
      · exact PrepMode.noConfusion hc

/-- C1: for a score with a valid full range, full mode is selected iff
`minFull ≥ backendMin - tolerance` and `maxFull ≤ backendMax + tolerance`. -/
theorem c1_full_mode_selection (s : ScoreData)
    (tolerance backendMin backendMax minFull maxFull : ℤ)
    (h : get_score_range s.elements = some (minFull, maxFull)) :
    load_and_prepare_mode s tolerance backendMin backendMax
        = PrepMode.fullScore
      ↔ (minFull ≥ backendMin - tolerance
          ∧ maxFull ≤ backendMax + tolerance) := by
  have hred : load_and_prepare_mode s tolerance backendMin backendMax
      = if minFull ≥ backendMin - tolerance
          ∧ maxFull ≤ backendMax + tolerance
        then PrepMode.fullScore else planElse s := by
    unfold load_and_prepare_mode
    rw [h]
  rw [hred]
  by_cases hc : minFull ≥ backendMin - tolerance
      ∧ maxFull ≤ backendMax + tolerance
  · rw [if_pos hc]
    exact ⟨fun _ => hc, fun _ => rfl⟩
  · rw [if_neg hc]
    exact ⟨fun hfull => absurd hfull (planElse_ne_fullScore s),
      fun hcond => absurd hcond hc⟩

theorem load_and_prepare_mode_melody (s : ScoreData)
    (tolerance backendMin backendMax minFull maxFull : ℤ)
    (h : get_score_range s.elements = some (minFull, maxFull))
    (hc : ¬(minFull ≥ backendMin - tolerance
        ∧ maxFull ≤ backendMax + tolerance))
    (part1 : List NoteElement) (rest : List (List NoteElement))
    (hp : s.parts = part1 :: rest)
    (pr : ℤ × ℤ) (hr : get_score_range part1 = some pr)
    (t : ℤ) (out : List NoteElement)
    (hm : prepareMelody part1 = some (t, out)) :
    load_and_prepare_mode s tolerance backendMin backendMax
      = PrepMode.melodyMode t := by
  have hred : load_and_prepare_mode s tolerance backendMin backendMax
      = if minFull ≥ backendMin - tolerance
          ∧ maxFull ≤ backendMax + tolerance
        then PrepMode.fullScore else planElse s := by
    unfold load_and_prepare_mode
    rw [h]
  rw [hred, if_neg hc]
  unfold planElse
  rw [hp]
  show (match get_score_range part1 with
    | none => PrepMode.noMelodyNotes
    | some _ =>
      match prepareMelody part1 with
      | none => PrepMode.noMelodyNotes
      | some (t, _) => PrepMode.melodyMode t) = PrepMode.melodyMode t
  rw [hr]
  show (match prepareMelody part1 with
    | none => PrepMode.noMelodyNotes
    | some (t, _) => PrepMode.melodyMode t) = PrepMode.melodyMode t
  rw [hm]

/-- C3: for a first voice with at least one resolvable MIDI value, the
planner transposes the whole voice uniformly by the rounded difference
between the target center 65 and the Python median of the voice's
representative values (chords counted by their highest pitch); a zero amount
leaves the voice untouched. -/
theorem c3_melody_centering (part1 : List NoteElement)
    (h : melodyMidiValues part1 ≠ []) :
    melodyTranspose part1
      = pyRound ((TARGET_CENTER_MIDI : ℚ)
          - pyMedian (melodyMidiValues part1)) ∧
    prepareMelody part1
      = some (melodyTranspose part1,
          part1.map (transposeElement (melodyTranspose part1))) ∧
    (melodyTranspose part1 = 0 →
      part1.map (transposeElement (melodyTranspose part1)) = part1) := by
  refine ⟨rfl, ?_, ?_⟩
  · unfold prepareMelody
    rw [if_neg h]
    by_cases ht : melodyTranspose part1 = 0
    · rw [if_neg (fun hne => hne ht), ht, transposeZeroMap part1]
    · rw [if_pos ht]
  · intro h0
    rw [h0, transposeZeroMap part1]

/-- C3 witness: the voice `[62]` has median 62 and is shifted uniformly by
`round(65 - 62) = 3`. -/
theorem c3_melody_centering_witness :
    prepareMelody [NoteElement.noteE (some 62)]
      = some (3, [NoteElement.noteE (some 65)]) := by
  have h := c3_melody_centering [NoteElement.noteE (some 62)] (by decide)
  have hmed : pyMedian (melodyMidiValues [NoteElement.noteE (some 62)])
      = ((62 : ℤ) : ℚ) := by
    norm_num [melodyMidiValues, pyMedian, sortInts, insertSorted]
  have hcast : ((TARGET_CENTER_MIDI : ℤ) : ℚ) - ((62 : ℤ) : ℚ)
      = ((3 : ℤ) : ℚ) := by
    norm_num [TARGET_CENTER_MIDI]
  have ht : melodyTranspose [NoteElement.noteE (some 62)] = 3 := by
    unfold melodyTranspose
    rw [hmed, hcast, pyRound_intCast]
  rw [h.2.1, ht]
  decide

/-- C1 witness: device range 48-83 with tolerance 5 accepts the full range
`[44, 86]` (full mode); with tolerance 0 the full range `[40, 90]` does not
fit and the single-note first part selects melody mode. -/
theorem c1_full_mode_selection_witness :
    load_and_prepare_mode
      ⟨[NoteElement.noteE (some 44), NoteElement.noteE (some 86)], []⟩
      5 48 83 = PrepMode.fullScore ∧
    load_and_prepare_mode
      ⟨[NoteElement.noteE (some 40), NoteElement.noteE (some 90)],
        [[NoteElement.noteE (some 62)]]⟩
      0 48 83 = PrepMode.melodyMode 3 := by
  constructor
  · exact (c1_full_mode_selection _ 5 48 83 44 86 (by decide)).mpr
      (by constructor <;> decide)
  · have hmel : prepareMelody [NoteElement.noteE (some 62)]
        = some (3, [NoteElement.noteE (some 65)]) := by
      have h3 := c3_melody_centering [NoteElement.noteE (some 62)] (by decide)
      have hmed : pyMedian (melodyMidiValues [NoteElement.noteE (some 62)])
          = ((62 : ℤ) : ℚ) := by
        norm_num [melodyMidiValues, pyMedian, sortInts, insertSorted]
      have hcast : ((TARGET_CENTER_MIDI : ℤ) : ℚ) - ((62 : ℤ) : ℚ)
          = ((3 : ℤ) : ℚ) := by
        norm_num [TARGET_CENTER_MIDI]
      have ht : melodyTranspose [NoteElement.noteE (some 62)] = 3 := by
        unfold melodyTranspose
        rw [hmed, hcast, pyRound_intCast]
      rw [h3.2.1, ht]
      decide
    exact load_and_prepare_mode_melody _ 0 48 83 40 90 (by decide)
      (by decide) [NoteElement.noteE (some 62)] [] rfl (62, 62) (by decide)
      3 [NoteElement.noteE (some 65)] hmel
